import Mathlib

/-!
Verification of `lib/client/identityfile/identity.go` (package `identityfile`):
the identity-bundle codec, consisting of `Write` (encoder with three layouts)
and `Decode` (line-oriented PEM-block decoder).

Modelling conventions:
* Byte slices (`[]byte`) are modelled as `List Char` (the content is ASCII text;
  multi-byte UTF-8 whitespace handling of `bytes.TrimSpace` is out of scope).
* A `nil` slice that the code distinguishes from a filled one (`PrivateKey`,
  `Certs.SSH`, `Certs.TLS`) is modelled as `Option (List Char)` with `none` for `nil`.
* File output is modelled as a list of `(path, content)` pairs, in write order,
  instead of real filesystem effects; I/O failures are out of scope.
* `bufio.Scanner` with the default `ScanLines` split function is modelled by
  `splitLines`: tokens are maximal `'\n'`-free segments, a trailing `'\r'` is
  dropped from each, a final unterminated segment is returned, and the empty
  input yields no tokens.  A read error of the underlying reader is modelled by
  an optional error value consulted once the lines are exhausted, matching
  `scanner.Err()`.
-/

deriving instance DecidableEq for Except

namespace Identityfile

/-- Byte strings (`[]byte` in the source), modelled as lists of characters. -/
abbrev Bytes := List Char

/-! ## Line splitting (`bufio.Scanner` with `ScanLines`) -/

/-- `dropCR` of `bufio.ScanLines`: drop one trailing carriage return. -/
def dropCR (l : Bytes) : Bytes :=
  if l.getLast? = some '\r' then l.dropLast else l

/-- Accumulating loop for `splitLines`: `cur` is the current (unterminated)
line read so far.  At `'\n'` the current line is emitted (with `dropCR`);
at end of input a non-empty remainder is emitted, an empty one is not. -/
def linesLoop : Bytes → Bytes → List Bytes
  | [], cur => if cur.isEmpty then [] else [dropCR cur]
  | c :: cs, cur =>
      if c = '\n' then dropCR cur :: linesLoop cs []
      else linesLoop cs (cur ++ [c])

/-- The sequence of lines `bufio.Scanner`/`ScanLines` produces from the input. -/
def splitLines (input : Bytes) : List Bytes :=
  linesLoop input []

/-! ## Whitespace trimming (`bytes.TrimSpace`) -/

/-- ASCII whitespace, the `asciiSpace` set of the `bytes` package:
`'\t'`, `'\n'`, `'\v'`, `'\f'`, `'\r'`, `' '`. -/
def isSpaceByte (c : Char) : Bool :=
  c = ' ' || c = '\t' || c = '\n' || c = '\x0b' || c = '\x0c' || c = '\r'

/-- `bytes.TrimSpace`: drop leading and trailing whitespace. -/
def trimSpace (l : Bytes) : Bytes :=
  ((l.dropWhile isSpaceByte).reverse.dropWhile isSpaceByte).reverse

/-! ## Data model -/

/-- `client.Key`: the credential bundle handed to `Write`. -/
structure Key where
  Priv : Bytes
  Cert : Bytes
  TLSCert : Bytes
deriving DecidableEq, Repr

/-- One TLS key pair of a certificate authority; only its `Cert` bytes are read. -/
structure TLSKeyPair where
  Cert : Bytes
deriving DecidableEq, Repr

/-- `services.CertAuthority`, reduced to the accessors the encoder consumes:
`GetClusterName`, `GetCheckingKeys`, `GetTLSKeyPairs`. -/
structure CertAuthority where
  ClusterName : Bytes
  CheckingKeys : List Bytes
  TLSKeyPairs : List TLSKeyPair
deriving DecidableEq, Repr

/-- `IdentityFile`, the decoder's output record.  The nested Go structs
`Certs.{SSH,TLS}` and `CACerts.{SSH,TLS}` are flattened into four fields. -/
structure IdentityFile where
  PrivateKey : Option Bytes
  CertsSSH : Option Bytes
  CertsTLS : Option Bytes
  CACertsSSH : List Bytes
  CACertsTLS : List Bytes
deriving DecidableEq, Repr

/-- The zero `IdentityFile` that `Decode` starts from (`var ident IdentityFile`). -/
def IdentityFile.empty : IdentityFile :=
  ⟨none, none, none, [], []⟩

/-! ## Encoder (`Write`) -/

/-- The `Format` string type. -/
abbrev Format := String

/-- `FormatFile`: key + certs concatenated into a single file. -/
def FormatFile : Format := "file"

/-- `FormatOpenSSH`: key and cert in two separate files. -/
def FormatOpenSSH : Format := "openssh"

/-- `FormatTLS`: standard TLS layout with separate key/cert/CA files. -/
def FormatTLS : Format := "tls"

/-- `DefaultFormat` is `FormatFile`. -/
def DefaultFormat : Format := FormatFile

/-- Modelled from the spec: `sshutils.MarshalAuthorizedHostsFormat` lives outside
this repository slice (`lib/sshutils`); §6 of the spec specifies it as an
authorized-hosts line formatter `FormatAuthorizedHost(clusterName, publicKey,
options) → string` producing `@cert-authority <cluster-id> <key-data>`
(no trailing newline: `Write` appends the newline itself). -/
def MarshalAuthorizedHostsFormat (clusterName publicKey : Bytes) : Bytes :=
  "@cert-authority ".toList ++ clusterName ++ ' ' :: publicKey

/-- Errors of `Write`; only `trace.BadParameter` is reachable in the model
(I/O failures are not modelled). -/
inductive WriteError where
  | badParameter (msg : Bytes)
deriving DecidableEq, Repr

/-- The `BadParameter` message for an empty base path. -/
def emptyPathMsg : Bytes :=
  "identity location is not specified".toList

/-- The `BadParameter` message for an unrecognized format
(`"unsupported identity format: %q, use one of %q, %q, or %q"`). -/
def unsupportedFormatMsg (format : Format) : Bytes :=
  "unsupported identity format: \"".toList ++ format.toList ++
    "\", use one of \"file\", \"openssh\", or \"tls\"".toList

/-- The trusted-authorities tail of the `FormatFile` layout: for each authority,
for each SSH checking key an authorized-hosts line plus `"\n"`, then for each
TLS key pair its raw certificate bytes, appended sequentially to the output
buffer exactly as the `for` loops in `Write` do. -/
def fileOutputCAs (certAuthorities : List CertAuthority) : Bytes :=
  certAuthorities.foldl
    (fun buf ca =>
      (ca.CheckingKeys.foldl
        (fun b publicKey =>
          b ++ MarshalAuthorizedHostsFormat ca.ClusterName publicKey ++ ['\n'])
        buf)
        |> (fun b => ca.TLSKeyPairs.foldl (fun b keyPair => b ++ keyPair.Cert) b))
    []

/-- The `.cas` content of the `FormatTLS` layout: the `caCerts` buffer built by
appending every authority's TLS key-pair certificates in order. -/
def tlsCACerts (certAuthorities : List CertAuthority) : Bytes :=
  certAuthorities.foldl
    (fun buf ca => ca.TLSKeyPairs.foldl (fun b keyPair => b ++ keyPair.Cert) buf)
    []

/-- `Write`: saves the credentials in the requested format.  The result is the
pair of `filesWritten` (the returned path list) and the written files as
`(path, content)` pairs in write order. -/
def Write (filePath : String) (key : Key) (format : Format)
    (certAuthorities : List CertAuthority) :
    Except WriteError (List String × List (String × Bytes)) :=
  if filePath = "" then
    .error (.badParameter emptyPathMsg)
  else if format = FormatFile then
    -- single file: key, ssh cert, tls cert, then the authorities
    .ok ([filePath],
      [(filePath,
        key.Priv ++ key.Cert ++ key.TLSCert ++ fileOutputCAs certAuthorities)])
  else if format = FormatOpenSSH then
    -- cert written first, then the key, but `filesWritten = [keyPath, certPath]`
    .ok ([filePath, filePath ++ "-cert.pub"],
      [(filePath ++ "-cert.pub", key.Cert), (filePath, key.Priv)])
  else if format = FormatTLS then
    .ok ([filePath ++ ".key", filePath ++ ".crt", filePath ++ ".cas"],
      [(filePath ++ ".crt", key.TLSCert),
       (filePath ++ ".key", key.Priv),
       (filePath ++ ".cas", tlsCACerts certAuthorities)])
  else
    .error (.badParameter (unsupportedFormatMsg format))

/-! ## Decoder (`Decode`) -/

/-- The `"ssh"` line marker. -/
def sshMarker : Bytes := ['s', 's', 'h']

/-- The `"@cert-authority"` line marker. -/
def caMarker : Bytes :=
  ['@', 'c', 'e', 'r', 't', '-', 'a', 'u', 't', 'h', 'o', 'r', 'i', 't', 'y']

/-- The `"-----BEGIN"` PEM marker. -/
def beginMarker : Bytes := ['-', '-', '-', '-', '-', 'B', 'E', 'G', 'I', 'N']

/-- The `"-----END"` PEM marker. -/
def endMarker : Bytes := ['-', '-', '-', '-', '-', 'E', 'N', 'D']

/-- Errors of `Decode`. -/
inductive DecodeError where
  /-- `trace.BadParameter "invalid PEM block (fragment)"`: the scanner
  terminated in the middle of a PEM block without a reader error. -/
  | fragment
  /-- a reader error reported by `scanner.Err()`, wrapped. -/
  | readError (e : String)
deriving DecidableEq, Repr

/-- Placement of a completed PEM block
(`switch { case ident.PrivateKey == nil: ... }` in `Decode`). -/
def placePemBlock (ident : IdentityFile) (pemBlock : Bytes) : IdentityFile :=
  match ident.PrivateKey with
  | none => { ident with PrivateKey := some pemBlock }
  | some _ =>
    match ident.CertsTLS with
    | none => { ident with CertsTLS := some pemBlock }
    | some _ => { ident with CACertsTLS := ident.CACertsTLS ++ [pemBlock] }

/-- Decoder state: the record built so far, and `some acc` when the scan is
inside a PEM block whose accumulated content is `acc` (`none` between blocks).
The source's inner `for` loop over a PEM block is this second component. -/
abbrev DecState := IdentityFile × Option Bytes

/-- One iteration of `Decode`'s scan over one raw line.  Between blocks this is
the `switch { case peekln("ssh") ... }` dispatch; inside a block it is one
iteration of the PEM accumulation loop, which appends the trimmed line plus
`'\n'` and then tests the line for the `"-----END"` marker.  The same
append-then-test also runs on the `"-----BEGIN"` line itself, exactly as in
the source, where the inner loop's first iteration processes that line. -/
def stepLine (s : DecState) (rawLine : Bytes) : DecState :=
  let line := trimSpace rawLine
  match s with
  | (ident, some acc) =>
      let acc := acc ++ line ++ ['\n']
      if endMarker.isPrefixOf line then (placePemBlock ident acc, none)
      else (ident, some acc)
  | (ident, none) =>
      if sshMarker.isPrefixOf line then
        ({ ident with CertsSSH := some line }, none)
      else if caMarker.isPrefixOf line then
        ({ ident with CACertsSSH := ident.CACertsSSH ++ [line] }, none)
      else if beginMarker.isPrefixOf line then
        let acc := line ++ ['\n']
        if endMarker.isPrefixOf line then (placePemBlock ident acc, none)
        else (ident, some acc)
      else (ident, none)

/-- Run the decoder's scan over a list of raw lines from a given state. -/
def runLines (lines : List Bytes) (s : DecState) : DecState :=
  lines.foldl stepLine s

/-- End-of-stream handling of `Decode`: a reader error is propagated wrapped
(checked first, both inside and outside a PEM block); an end inside a PEM
block is the fragment error; otherwise the built record is returned. -/
def finishDecode (s : DecState) (readErr : Option String) :
    Except DecodeError IdentityFile :=
  match readErr with
  | some e => .error (.readError e)
  | none =>
    match s.2 with
    | some _ => .error .fragment
    | none => .ok s.1

/-- `Decode` at the line level: scan the lines from the empty record, then
apply the end-of-stream handling.  `readErr` is the error `scanner.Err()`
reports once the lines are exhausted (`none` for a clean end of stream). -/
def decodeCore (lines : List Bytes) (readErr : Option String) :
    Except DecodeError IdentityFile :=
  finishDecode (runLines lines (IdentityFile.empty, none)) readErr

/-- `Decode` on an input byte stream read without reader errors. -/
def Decode (input : Bytes) : Except DecodeError IdentityFile :=
  decodeCore (splitLines input) none

/-! ## Spec-side notions

The following definitions follow the specification's wording (positional
PEM-block extraction from a stream, message containment, block normalization);
they exist to *state* the claims and are compared with the decoder above. -/

/-- Spec-side: one step of plain PEM-block extraction over one raw line,
tracking `(completed blocks, open block)`.  A block starts at a line whose
trimmed form starts with `-----BEGIN`, collects each trimmed line followed by
one newline, and completes once a line starting with `-----END` is collected. -/
def blocksStep (s : List Bytes × Option Bytes) (rawLine : Bytes) :
    List Bytes × Option Bytes :=
  let line := trimSpace rawLine
  match s with
  | (bs, some acc) =>
      let acc := acc ++ line ++ ['\n']
      if endMarker.isPrefixOf line then (bs ++ [acc], none) else (bs, some acc)
  | (bs, none) =>
      if beginMarker.isPrefixOf line then
        let acc := line ++ ['\n']
        if endMarker.isPrefixOf line then (bs ++ [acc], none) else (bs, some acc)
      else (bs, none)

/-- Spec-side: the completed PEM blocks of a line stream, in stream order
(a trailing unterminated block contributes nothing). -/
def streamPemBlocks (lines : List Bytes) : List Bytes :=
  (lines.foldl blocksStep ([], none)).1

/-- Filling the positional slots of an `IdentityFile` with a list of PEM
blocks, one after the other. -/
def fillBlocks (ident : IdentityFile) (bs : List Bytes) : IdentityFile :=
  bs.foldl placePemBlock ident

/-- The three PEM-positional fields of an `IdentityFile`, as one tuple. -/
def pemFields (ident : IdentityFile) : Option Bytes × Option Bytes × List Bytes :=
  (ident.PrivateKey, ident.CertsTLS, ident.CACertsTLS)

/-- `needle` occurs contiguously inside `hay`. -/
def containsSeq (needle hay : Bytes) : Prop :=
  ∃ s t, hay = s ++ needle ++ t

/-- Spec-side: a bundle with at least one non-empty component. -/
def nonemptyBundle (key : Key) : Prop :=
  key.Priv ≠ [] ∨ key.Cert ≠ [] ∨ key.TLSCert ≠ []

instance (key : Key) : Decidable (nonemptyBundle key) := by
  unfold nonemptyBundle
  infer_instance

/-- Spec-side: `b` is a newline-normalized PEM block — a non-empty sequence of
whitespace-trimmed, `'\n'`-free lines, each followed by exactly one `'\n'`,
whose first line starts with `-----BEGIN` and whose last starts with
`-----END`. -/
def IsNormalizedBlock (b : Bytes) : Prop :=
  ∃ ls : List Bytes,
    b = (ls.map (fun l => l ++ ['\n'])).flatten ∧
    (∀ l ∈ ls, trimSpace l = l ∧ '\n' ∉ l) ∧
    (∃ firstLine rest, ls = firstLine :: rest ∧
      beginMarker.isPrefixOf firstLine = true) ∧
    (∃ front lastLine, ls = front ++ [lastLine] ∧
      endMarker.isPrefixOf lastLine = true)

/-- Spec-side: `acc` is the accumulator of a still-open PEM block — like
`IsNormalizedBlock` but with no condition on the last line. -/
def IsOpenBlock (acc : Bytes) : Prop :=
  ∃ ls : List Bytes,
    acc = (ls.map (fun l => l ++ ['\n'])).flatten ∧
    (∀ l ∈ ls, trimSpace l = l ∧ '\n' ∉ l) ∧
    (∃ firstLine rest, ls = firstLine :: rest ∧
      beginMarker.isPrefixOf firstLine = true)

/-! ## Basic lemmas: markers and folds -/

/-- Two incomparable marker words are never both prefixes of one line. -/
theorem marker_excl {m₁ m₂ l : Bytes}
    (hne : ¬(m₁ <+: m₂ ∨ m₂ <+: m₁)) (h : m₁.isPrefixOf l = true) :
    m₂.isPrefixOf l = false := by
  by_contra hc
  rw [Bool.not_eq_false, List.isPrefixOf_iff_prefix] at hc
  rw [List.isPrefixOf_iff_prefix] at h
  exact hne (List.prefix_or_prefix_of_prefix h hc)

theorem begin_not_ssh {l : Bytes} (h : beginMarker.isPrefixOf l = true) :
    sshMarker.isPrefixOf l = false :=
  marker_excl (by decide) h

theorem begin_not_ca {l : Bytes} (h : beginMarker.isPrefixOf l = true) :
    caMarker.isPrefixOf l = false :=
  marker_excl (by decide) h

theorem begin_not_end {l : Bytes} (h : beginMarker.isPrefixOf l = true) :
    endMarker.isPrefixOf l = false :=
  marker_excl (by decide) h

theorem ssh_not_begin {l : Bytes} (h : sshMarker.isPrefixOf l = true) :
    beginMarker.isPrefixOf l = false :=
  marker_excl (by decide) h

theorem ca_not_begin {l : Bytes} (h : caMarker.isPrefixOf l = true) :
    beginMarker.isPrefixOf l = false :=
  marker_excl (by decide) h

/-- Closed form of an appending fold: folding `b ++ f a` from `init` is
`init` followed by the concatenation of the images. -/
theorem foldl_append_eq_join {α : Type} (f : α → Bytes) (l : List α)
    (init : Bytes) :
    l.foldl (fun b a => b ++ f a) init = init ++ (l.map f).flatten := by
  induction l generalizing init with
  | nil => simp
  | cons a as ih => simp [ih, List.append_assoc]

/-- Closed form of the `.cas` buffer of the `FormatTLS` layout. -/
theorem tlsCACerts_eq (certAuthorities : List CertAuthority) :
    tlsCACerts certAuthorities =
      (certAuthorities.map
        (fun ca => (ca.TLSKeyPairs.map (fun keyPair => keyPair.Cert)).flatten)).flatten := by
  suffices h : ∀ (cas : List CertAuthority) (buf : Bytes),
      cas.foldl (fun b ca => ca.TLSKeyPairs.foldl (fun b kp => b ++ kp.Cert) b) buf =
        buf ++ (cas.map (fun ca => (ca.TLSKeyPairs.map (fun kp => kp.Cert)).flatten)).flatten by
    simpa [tlsCACerts] using h certAuthorities []
  intro cas
  induction cas with
  | nil => simp
  | cons ca cas ih =>
      intro buf
      simp [ih, foldl_append_eq_join, List.append_assoc]

/-- Closed form of the authorities tail of the `FormatFile` layout. -/
theorem fileOutputCAs_eq (certAuthorities : List CertAuthority) :
    fileOutputCAs certAuthorities =
      (certAuthorities.map (fun ca =>
        (ca.CheckingKeys.map (fun publicKey =>
          MarshalAuthorizedHostsFormat ca.ClusterName publicKey ++ ['\n'])).flatten ++
        (ca.TLSKeyPairs.map (fun keyPair => keyPair.Cert)).flatten)).flatten := by
  suffices h : ∀ (cas : List CertAuthority) (buf : Bytes),
      cas.foldl (fun b ca =>
          (ca.CheckingKeys.foldl
            (fun b pk => b ++ MarshalAuthorizedHostsFormat ca.ClusterName pk ++ ['\n']) b)
            |> (fun b => ca.TLSKeyPairs.foldl (fun b kp => b ++ kp.Cert) b)) buf =
        buf ++ (cas.map (fun ca =>
          (ca.CheckingKeys.map (fun pk =>
            MarshalAuthorizedHostsFormat ca.ClusterName pk ++ ['\n'])).flatten ++
          (ca.TLSKeyPairs.map (fun kp => kp.Cert)).flatten)).flatten by
    simpa [fileOutputCAs] using h certAuthorities []
  intro cas
  induction cas with
  | nil => simp
  | cons ca cas ih =>
      intro buf
      have hinner : ∀ (ks : List Bytes) (b : Bytes),
          ks.foldl (fun b pk =>
              b ++ (MarshalAuthorizedHostsFormat ca.ClusterName pk ++ ['\n'])) b =
            b ++ (ks.map (fun pk =>
              MarshalAuthorizedHostsFormat ca.ClusterName pk ++ ['\n'])).flatten := by
        intro ks
        induction ks with
        | nil => simp
        | cons k ks ihk => intro b; simp [ihk, List.append_assoc]
      simp [ih, hinner, foldl_append_eq_join, List.append_assoc]

/-- Anything contained in `s` is contained in `p ++ s`. -/
theorem containsSeq_append_left {n s : Bytes} (p : Bytes) (h : containsSeq n s) :
    containsSeq n (p ++ s) := by
  obtain ⟨a, b, hab⟩ := h
  exact ⟨p ++ a, b, by simp [hab, List.append_assoc]⟩

/-! ## Encoder claims -/

/-- **C3** (File-layout content): for every valid bundle and authority list,
`Write` with the `file` layout produces a single stream that is exactly the
private key bytes, then the SSH cert bytes, then the TLS cert bytes, then for
each authority in order, for each of its SSH host keys an
authorized-hosts-formatted line followed by a newline, then for each of its
TLS key pairs the raw certificate bytes, with no other separators. -/
theorem write_file_layout (filePath : String) (key : Key)
    (certAuthorities : List CertAuthority) (hp : filePath ≠ "") :
    Write filePath key FormatFile certAuthorities =
      .ok ([filePath],
        [(filePath,
          key.Priv ++ key.Cert ++ key.TLSCert ++
            (certAuthorities.map (fun ca =>
              (ca.CheckingKeys.map (fun publicKey =>
                MarshalAuthorizedHostsFormat ca.ClusterName publicKey ++ ['\n'])).flatten ++
              (ca.TLSKeyPairs.map (fun keyPair => keyPair.Cert)).flatten)).flatten)]) := by
  unfold Write
  rw [if_neg hp, if_pos rfl, fileOutputCAs_eq]

theorem write_file_layout_witness :
    ("id" : String) ≠ "" ∧
    Write "id" ⟨"PRIV\n".toList, "CERT\n".toList, "TLS\n".toList⟩ FormatFile
        [⟨"cl".toList, ["hk".toList], [⟨"CA\n".toList⟩]⟩] =
      .ok (["id"],
        [("id",
          "PRIV\n".toList ++ "CERT\n".toList ++ "TLS\n".toList ++
            (([⟨"cl".toList, ["hk".toList], [⟨"CA\n".toList⟩]⟩] :
                List CertAuthority).map (fun ca =>
              (ca.CheckingKeys.map (fun publicKey =>
                MarshalAuthorizedHostsFormat ca.ClusterName publicKey ++ ['\n'])).flatten ++
              (ca.TLSKeyPairs.map (fun keyPair => keyPair.Cert)).flatten)).flatten)]) :=
  ⟨by decide,
   write_file_layout "id" ⟨"PRIV\n".toList, "CERT\n".toList, "TLS\n".toList⟩
     [⟨"cl".toList, ["hk".toList], [⟨"CA\n".toList⟩]⟩] (by decide)⟩

/-- **C5** (TLS-layout postcondition): for every valid input, `Write` with the
`tls` layout produces exactly three outputs — the private key bytes to
`basePath ++ ".key"`, the TLS cert bytes to `basePath ++ ".crt"`, and the
concatenation of every authority's TLS key-pair certificate bytes, in supplied
order, to `basePath ++ ".cas"` — and returns exactly those three paths. -/
theorem write_tls_layout (filePath : String) (key : Key)
    (certAuthorities : List CertAuthority) (hp : filePath ≠ "") :
    Write filePath key FormatTLS certAuthorities =
      .ok ([filePath ++ ".key", filePath ++ ".crt", filePath ++ ".cas"],
        [(filePath ++ ".crt", key.TLSCert),
         (filePath ++ ".key", key.Priv),
         (filePath ++ ".cas",
           (certAuthorities.map (fun ca =>
             (ca.TLSKeyPairs.map (fun keyPair => keyPair.Cert)).flatten)).flatten)]) := by
  unfold Write
  rw [if_neg hp, if_neg (by decide), if_neg (by decide), if_pos rfl, tlsCACerts_eq]

theorem write_tls_layout_witness :
    ("id" : String) ≠ "" ∧
    Write "id" ⟨"P".toList, "C".toList, "T".toList⟩ FormatTLS
        [⟨"cl".toList, [], [⟨"ca1".toList⟩, ⟨"ca2".toList⟩]⟩] =
      .ok (["id" ++ ".key", "id" ++ ".crt", "id" ++ ".cas"],
        [("id" ++ ".crt", "T".toList),
         ("id" ++ ".key", "P".toList),
         ("id" ++ ".cas",
           (([⟨"cl".toList, [], [⟨"ca1".toList⟩, ⟨"ca2".toList⟩]⟩] :
               List CertAuthority).map (fun ca =>
             (ca.TLSKeyPairs.map (fun keyPair => keyPair.Cert)).flatten)).flatten)]) :=
  ⟨by decide,
   write_tls_layout "id" ⟨"P".toList, "C".toList, "T".toList⟩
     [⟨"cl".toList, [], [⟨"ca1".toList⟩, ⟨"ca2".toList⟩]⟩] (by decide)⟩

/-- **C6** (OpenSSH-layout postcondition): for every valid input, `Write` with
the `openssh` layout produces exactly two outputs — the SSH cert bytes
verbatim to `basePath ++ "-cert.pub"` and the private key bytes verbatim to
`basePath` — includes no authority data in either output (the right-hand side
does not depend on `certAuthorities`), and returns exactly those two paths. -/
theorem write_openssh_layout (filePath : String) (key : Key)
    (certAuthorities : List CertAuthority) (hp : filePath ≠ "") :
    Write filePath key FormatOpenSSH certAuthorities =
      .ok ([filePath, filePath ++ "-cert.pub"],
        [(filePath ++ "-cert.pub", key.Cert), (filePath, key.Priv)]) := by
  unfold Write
  rw [if_neg hp, if_neg (by decide), if_pos rfl]

theorem write_openssh_layout_witness :
    ("id" : String) ≠ "" ∧
    Write "id" ⟨"P".toList, "C".toList, "T".toList⟩ FormatOpenSSH
        [⟨"cl".toList, ["hk".toList], [⟨"ca1".toList⟩]⟩] =
      .ok (["id", "id" ++ "-cert.pub"],
        [("id" ++ "-cert.pub", "C".toList), ("id", "P".toList)]) :=
  ⟨by decide,
   write_openssh_layout "id" ⟨"P".toList, "C".toList, "T".toList⟩
     [⟨"cl".toList, ["hk".toList], [⟨"ca1".toList⟩]⟩] (by decide)⟩

/-- **C7** (Invalid-argument rejection): `Write` fails with an
invalid-argument error, writing no output, whenever `basePath` is the empty
string, and whenever the layout value is not one of `"file"`, `"openssh"`,
`"tls"` (case-sensitive); in the unrecognized-layout case (with a non-empty
path, where that error is the one reported) the error message names all three
valid values. -/
theorem write_invalid_arguments :
    (∀ (key : Key) (format : Format) (cas : List CertAuthority),
        Write "" key format cas = .error (.badParameter emptyPathMsg)) ∧
    (∀ (filePath : String) (key : Key) (format : Format) (cas : List CertAuthority),
        format ≠ FormatFile → format ≠ FormatOpenSSH → format ≠ FormatTLS →
        (∃ msg, Write filePath key format cas = .error (.badParameter msg)) ∧
        (filePath ≠ "" →
          Write filePath key format cas =
              .error (.badParameter (unsupportedFormatMsg format)) ∧
            containsSeq FormatFile.toList (unsupportedFormatMsg format) ∧
            containsSeq FormatOpenSSH.toList (unsupportedFormatMsg format) ∧
            containsSeq FormatTLS.toList (unsupportedFormatMsg format))) := by
  constructor
  · intro key format cas
    unfold Write
    rw [if_pos rfl]
  · intro filePath key format cas h1 h2 h3
    have hbad : filePath ≠ "" →
        Write filePath key format cas =
          .error (.badParameter (unsupportedFormatMsg format)) := by
      intro hp
      unfold Write
      rw [if_neg hp, if_neg h1, if_neg h2, if_neg h3]
    constructor
    · by_cases hp : filePath = ""
      · subst hp
        exact ⟨emptyPathMsg, by unfold Write; rw [if_pos rfl]⟩
      · exact ⟨unsupportedFormatMsg format, hbad hp⟩
    · intro hp
      refine ⟨hbad hp, ?_, ?_, ?_⟩
      · exact containsSeq_append_left _
          ⟨"\", use one of \"".toList, "\", \"openssh\", or \"tls\"".toList, by decide⟩
      · exact containsSeq_append_left _
          ⟨"\", use one of \"file\", \"".toList, "\", or \"tls\"".toList, by decide⟩
      · exact containsSeq_append_left _
          ⟨"\", use one of \"file\", \"openssh\", or \"".toList, "\"".toList, by decide⟩

theorem write_invalid_arguments_witness :
    Write "" ⟨[], [], []⟩ FormatFile [] = .error (.badParameter emptyPathMsg) ∧
    (("yaml" : Format) ≠ FormatFile ∧ ("yaml" : Format) ≠ FormatOpenSSH ∧
      ("yaml" : Format) ≠ FormatTLS ∧ ("id" : String) ≠ "") ∧
    (Write "id" ⟨[], [], []⟩ "yaml" [] =
        .error (.badParameter (unsupportedFormatMsg "yaml")) ∧
      containsSeq FormatFile.toList (unsupportedFormatMsg "yaml") ∧
      containsSeq FormatOpenSSH.toList (unsupportedFormatMsg "yaml") ∧
      containsSeq FormatTLS.toList (unsupportedFormatMsg "yaml")) :=
  ⟨write_invalid_arguments.1 ⟨[], [], []⟩ FormatFile [],
   ⟨by decide, by decide, by decide, by decide⟩,
   (write_invalid_arguments.2 "id" ⟨[], [], []⟩ "yaml" []
      (by decide) (by decide) (by decide)).2 (by decide)⟩

/-! ## Decoder lemmas: single-step equations -/

theorem ssh_not_ca {l : Bytes} (h : sshMarker.isPrefixOf l = true) :
    caMarker.isPrefixOf l = false :=
  marker_excl (by decide) h

theorem runLines_nil (s : DecState) : runLines [] s = s := rfl

theorem runLines_cons (l : Bytes) (lines : List Bytes) (s : DecState) :
    runLines (l :: lines) s = runLines lines (stepLine s l) := rfl

theorem runLines_append (xs ys : List Bytes) (s : DecState) :
    runLines (xs ++ ys) s = runLines ys (runLines xs s) := by
  simp [runLines, List.foldl_append]

theorem stepLine_inBlock_end (ident : IdentityFile) (acc l : Bytes)
    (h : endMarker.isPrefixOf (trimSpace l) = true) :
    stepLine (ident, some acc) l =
      (placePemBlock ident (acc ++ trimSpace l ++ ['\n']), none) := by
  simp [stepLine, h]

theorem stepLine_inBlock_cont (ident : IdentityFile) (acc l : Bytes)
    (h : endMarker.isPrefixOf (trimSpace l) = false) :
    stepLine (ident, some acc) l = (ident, some (acc ++ trimSpace l ++ ['\n'])) := by
  simp [stepLine, h]

theorem stepLine_ssh (ident : IdentityFile) (l : Bytes)
    (h : sshMarker.isPrefixOf (trimSpace l) = true) :
    stepLine (ident, none) l = ({ ident with CertsSSH := some (trimSpace l) }, none) := by
  simp [stepLine, h]

theorem stepLine_ca (ident : IdentityFile) (l : Bytes)
    (h0 : sshMarker.isPrefixOf (trimSpace l) = false)
    (h : caMarker.isPrefixOf (trimSpace l) = true) :
    stepLine (ident, none) l =
      ({ ident with CACertsSSH := ident.CACertsSSH ++ [trimSpace l] }, none) := by
  simp [stepLine, h0, h]

theorem stepLine_begin (ident : IdentityFile) (l : Bytes)
    (h : beginMarker.isPrefixOf (trimSpace l) = true) :
    stepLine (ident, none) l = (ident, some (trimSpace l ++ ['\n'])) := by
  simp [stepLine, begin_not_ssh h, begin_not_ca h, begin_not_end h, h]

theorem stepLine_skip (ident : IdentityFile) (l : Bytes)
    (h0 : sshMarker.isPrefixOf (trimSpace l) = false)
    (h1 : caMarker.isPrefixOf (trimSpace l) = false)
    (h2 : beginMarker.isPrefixOf (trimSpace l) = false) :
    stepLine (ident, none) l = (ident, none) := by
  simp [stepLine, h0, h1, h2]

theorem blocksStep_inBlock_end (bs : List Bytes) (acc l : Bytes)
    (h : endMarker.isPrefixOf (trimSpace l) = true) :
    blocksStep (bs, some acc) l = (bs ++ [acc ++ trimSpace l ++ ['\n']], none) := by
  simp [blocksStep, h]

theorem blocksStep_inBlock_cont (bs : List Bytes) (acc l : Bytes)
    (h : endMarker.isPrefixOf (trimSpace l) = false) :
    blocksStep (bs, some acc) l = (bs, some (acc ++ trimSpace l ++ ['\n'])) := by
  simp [blocksStep, h]

theorem blocksStep_begin (bs : List Bytes) (l : Bytes)
    (h : beginMarker.isPrefixOf (trimSpace l) = true) :
    blocksStep (bs, none) l = (bs, some (trimSpace l ++ ['\n'])) := by
  simp [blocksStep, h, begin_not_end h]

theorem blocksStep_skip (bs : List Bytes) (l : Bytes)
    (h : beginMarker.isPrefixOf (trimSpace l) = false) :
    blocksStep (bs, none) l = (bs, none) := by
  simp [blocksStep, h]

/-- Inversion of the end-of-stream handling: a successful decode means no
reader error and a scan that ended outside any PEM block. -/
theorem finishDecode_ok {s : DecState} {readErr : Option String}
    {ident : IdentityFile} (h : finishDecode s readErr = .ok ident) :
    s.1 = ident ∧ s.2 = none ∧ readErr = none := by
  cases readErr with
  | some e => simp [finishDecode] at h
  | none =>
      cases hs : s.2 with
      | some acc => simp [finishDecode, hs] at h
      | none =>
          refine ⟨?_, rfl, rfl⟩
          simpa [finishDecode, hs] using h

/-! ## C9: classification-order invariant -/

/-- Later positional slots are never filled while an earlier one is empty. -/
def ClassInv (ident : IdentityFile) : Prop :=
  (ident.CertsTLS.isSome = true → ident.PrivateKey.isSome = true) ∧
  (ident.CACertsTLS ≠ [] →
    ident.PrivateKey.isSome = true ∧ ident.CertsTLS.isSome = true)

theorem placePemBlock_classInv {ident : IdentityFile} (h : ClassInv ident)
    (b : Bytes) : ClassInv (placePemBlock ident b) := by
  obtain ⟨h1, h2⟩ := h
  unfold placePemBlock
  cases hpk : ident.PrivateKey with
  | none =>
      constructor
      · intro _; simp
      · intro hca
        have hc := (h2 hca).1
        rw [hpk] at hc
        simp at hc
  | some p =>
      cases htls : ident.CertsTLS with
      | none =>
          constructor
          · intro _; simp [hpk]
          · intro hca
            have hc := (h2 hca).2
            rw [htls] at hc
            simp at hc
      | some t =>
          constructor
          · intro _; simp [hpk]
          · intro _; simp [hpk, htls]

theorem stepLine_classInv {s : DecState} (h : ClassInv s.1) (l : Bytes) :
    ClassInv (stepLine s l).1 := by
  obtain ⟨ident, pem⟩ := s
  cases pem with
  | some acc =>
      by_cases he : endMarker.isPrefixOf (trimSpace l) = true
      · rw [stepLine_inBlock_end _ _ _ he]
        exact placePemBlock_classInv h _
      · rw [stepLine_inBlock_cont _ _ _ (Bool.eq_false_iff.mpr he)]
        exact h
  | none =>
      by_cases h0 : sshMarker.isPrefixOf (trimSpace l) = true
      · rw [stepLine_ssh _ _ h0]; exact h
      · by_cases h1 : caMarker.isPrefixOf (trimSpace l) = true
        · rw [stepLine_ca _ _ (Bool.eq_false_iff.mpr h0) h1]; exact h
        · by_cases h2 : beginMarker.isPrefixOf (trimSpace l) = true
          · rw [stepLine_begin _ _ h2]; exact h
          · rw [stepLine_skip _ _ (Bool.eq_false_iff.mpr h0)
              (Bool.eq_false_iff.mpr h1) (Bool.eq_false_iff.mpr h2)]
            exact h

theorem runLines_classInv : ∀ (lines : List Bytes) (s : DecState),
    ClassInv s.1 → ClassInv (runLines lines s).1 := by
  intro lines
  induction lines with
  | nil => intro s h; exact h
  | cons l ls ih =>
      intro s h
      rw [runLines_cons]
      exact ih _ (stepLine_classInv h l)

/-- **C9** (implicit classification-order invariant): every successful `Decode`
result satisfies — if the TLS certificate field is filled then `PrivateKey` is
filled, and if the TLS authorities list is non-empty then both `PrivateKey`
and the TLS certificate are filled; later positional slots are never filled
while an earlier one is empty. -/
theorem decode_classification_order (input : Bytes) (ident : IdentityFile)
    (h : Decode input = .ok ident) :
    (ident.CertsTLS.isSome = true → ident.PrivateKey.isSome = true) ∧
    (ident.CACertsTLS ≠ [] →
      ident.PrivateKey.isSome = true ∧ ident.CertsTLS.isSome = true) := by
  unfold Decode decodeCore at h
  obtain ⟨h1, -, -⟩ := finishDecode_ok h
  have hinv := runLines_classInv (splitLines input) (IdentityFile.empty, none)
    (by constructor <;> simp [IdentityFile.empty])
  rw [h1] at hinv
  exact hinv

/-- A three-block stream used as concrete witness input. -/
def wStream : Bytes :=
  ("-----BEGIN A-----\n-----END A-----\n-----BEGIN B-----\n-----END B-----\n" ++
   "-----BEGIN C-----\n-----END C-----\n").toList

/-- The decode result of `wStream`. -/
def wIdent : IdentityFile :=
  ⟨some "-----BEGIN A-----\n-----END A-----\n".toList, none,
   some "-----BEGIN B-----\n-----END B-----\n".toList, [],
   ["-----BEGIN C-----\n-----END C-----\n".toList]⟩

theorem decode_classification_order_witness :
    Decode wStream = .ok wIdent ∧
    ((wIdent.CertsTLS.isSome = true → wIdent.PrivateKey.isSome = true) ∧
     (wIdent.CACertsTLS ≠ [] →
       wIdent.PrivateKey.isSome = true ∧ wIdent.CertsTLS.isSome = true)) := by
  have hdec : Decode wStream = .ok wIdent := by decide
  exact ⟨hdec, decode_classification_order wStream wIdent hdec⟩

/-! ## C4: unterminated PEM block -/

/-- Inside a PEM block, lines without the `-----END` marker keep the scan
inside the block and leave the record untouched. -/
theorem runLines_noEnd : ∀ (tail : List Bytes) (ident : IdentityFile) (acc : Bytes),
    (∀ l ∈ tail, endMarker.isPrefixOf (trimSpace l) = false) →
    ∃ acc', runLines tail (ident, some acc) = (ident, some acc') := by
  intro tail
  induction tail with
  | nil => intro ident acc _; exact ⟨acc, rfl⟩
  | cons l ls ih =>
      intro ident acc h
      rw [runLines_cons, stepLine_inBlock_cont _ _ _ (h l (by simp))]
      exact ih ident _ (fun x hx => h x (by simp [hx]))

/-- **C4** (fragment error): for every input stream that ends (without an
underlying read error) after a `-----BEGIN` line has been read but before an
`-----END` line is appended, `Decode` fails with the malformed-input
(fragment) error and returns no result, regardless of how many complete PEM
blocks preceded the fragment; if the stream instead ends due to a read error,
that error is propagated. -/
theorem decode_fragment_error :
    (∀ (pre : List Bytes) (b : Bytes) (tail : List Bytes),
        (runLines pre (IdentityFile.empty, none)).2 = none →
        beginMarker.isPrefixOf (trimSpace b) = true →
        (∀ l ∈ tail, endMarker.isPrefixOf (trimSpace l) = false) →
        decodeCore (pre ++ b :: tail) none = .error .fragment) ∧
    (∀ (lines : List Bytes) (e : String),
        decodeCore lines (some e) = .error (.readError e)) := by
  constructor
  · intro pre b tail hpre hb htail
    unfold decodeCore
    have happ := runLines_append pre (b :: tail) (IdentityFile.empty, none)
    rcases hsp : runLines pre (IdentityFile.empty, none) with ⟨identP, pemP⟩
    rw [hsp] at hpre happ
    have hpem : pemP = none := hpre
    subst hpem
    rw [happ, runLines_cons, stepLine_begin _ _ hb]
    obtain ⟨acc', hacc⟩ := runLines_noEnd tail identP _ htail
    rw [hacc]
    rfl
  · intro lines e
    rfl

theorem decode_fragment_error_witness :
    decodeCore ["-----BEGIN A-----".toList, "-----END A-----".toList,
        "-----BEGIN B-----".toList, "bbb".toList] none = .error .fragment ∧
    decodeCore ["xx".toList] (some "boom") = .error (.readError "boom") :=
  ⟨decode_fragment_error.1
      ["-----BEGIN A-----".toList, "-----END A-----".toList]
      "-----BEGIN B-----".toList ["bbb".toList]
      (by decide) (by decide) (by decide),
   decode_fragment_error.2 ["xx".toList] "boom"⟩

/-! ## C8: streams without PEM blocks -/

theorem getLast?_cons_getD {α : Type} (x d : α) (xs : List α) :
    ((x :: xs).getLast?).getD d = (xs.getLast?).getD x := by
  induction xs generalizing x d with
  | nil => rfl
  | cons y ys ih =>
      rw [List.getLast?_cons_cons]
      exact (ih y d).trans (ih y x).symm

theorem map_some_getD {α : Type} (o : Option α) : (o.map some).getD none = o := by
  cases o <;> rfl

/-- On a stream without `-----BEGIN` lines, the scan never enters a PEM block:
it records the last `ssh`-prefixed trimmed line and appends every
`@cert-authority`-prefixed trimmed line, leaving all other fields alone. -/
theorem runLines_noBegin : ∀ (lines : List Bytes) (ident : IdentityFile),
    (∀ l ∈ lines, beginMarker.isPrefixOf (trimSpace l) = false) →
    runLines lines (ident, none) =
      ({ ident with
          CertsSSH :=
            ((((lines.map trimSpace).filter
                (fun l => sshMarker.isPrefixOf l)).map some).getLast?).getD
              ident.CertsSSH,
          CACertsSSH :=
            ident.CACertsSSH ++
              (lines.map trimSpace).filter (fun l => caMarker.isPrefixOf l) },
        none) := by
  intro lines
  induction lines with
  | nil => intro ident h; simp [runLines]
  | cons l ls ih =>
      intro ident h
      have hls : ∀ x ∈ ls, beginMarker.isPrefixOf (trimSpace x) = false :=
        fun x hx => h x (by simp [hx])
      rw [runLines_cons]
      by_cases h0 : sshMarker.isPrefixOf (trimSpace l) = true
      · rw [stepLine_ssh _ _ h0, ih _ hls]
        simp [h0, ssh_not_ca h0, getLast?_cons_getD]
      · by_cases h1 : caMarker.isPrefixOf (trimSpace l) = true
        · rw [stepLine_ca _ _ (Bool.eq_false_iff.mpr h0) h1, ih _ hls]
          simp [Bool.eq_false_iff.mpr h0, h1, List.append_assoc]
        · rw [stepLine_skip _ _ (Bool.eq_false_iff.mpr h0)
            (Bool.eq_false_iff.mpr h1) (h l (by simp)), ih _ hls]
          simp [Bool.eq_false_iff.mpr h0, Bool.eq_false_iff.mpr h1]

/-- **C8** (no-PEM decode): for every input stream containing no line whose
trimmed form starts with `-----BEGIN`, `Decode` succeeds and returns a result
with empty `PrivateKey` and empty TLS certificate, whose SSH certificate is
the last whitespace-trimmed line starting with `ssh` (if any) and whose SSH
authorities are all trimmed lines starting with `@cert-authority` in stream
order; in particular the empty stream decodes to an all-empty result with no
error. -/
theorem decode_no_pem (input : Bytes)
    (h : ∀ l ∈ splitLines input, beginMarker.isPrefixOf (trimSpace l) = false) :
    Decode input =
      .ok { PrivateKey := none,
            CertsSSH := (((splitLines input).map trimSpace).filter
              (fun l => sshMarker.isPrefixOf l)).getLast?,
            CertsTLS := none,
            CACertsSSH := ((splitLines input).map trimSpace).filter
              (fun l => caMarker.isPrefixOf l),
            CACertsTLS := [] } := by
  unfold Decode decodeCore
  rw [runLines_noBegin _ _ h]
  unfold finishDecode
  simp [IdentityFile.empty, map_some_getD]

/-- A PEM-free witness stream. -/
def w8 : Bytes :=
  "ssh-rsa AAA\n@cert-authority x y\nother stuff\nssh-ed25519 BBB\n".toList

theorem decode_no_pem_witness :
    Decode w8 =
      .ok ⟨none, some "ssh-ed25519 BBB".toList, none,
        ["@cert-authority x y".toList], []⟩ ∧
    Decode [] = .ok ⟨none, none, none, [], []⟩ :=
  ⟨(decode_no_pem w8 (by decide)).trans (by decide),
   (decode_no_pem [] (by decide)).trans (by decide)⟩

/-! ## C2/C1: correspondence with positional block extraction -/

/-- `blocksStep` only ever appends to the completed-blocks component. -/
theorem blocksStep_shift (bs : List Bytes) (pem : Option Bytes) (l : Bytes) :
    blocksStep (bs, pem) l =
      (bs ++ (blocksStep ([], pem) l).1, (blocksStep ([], pem) l).2) := by
  cases pem with
  | some acc =>
      by_cases he : endMarker.isPrefixOf (trimSpace l) = true
      · rw [blocksStep_inBlock_end _ _ _ he, blocksStep_inBlock_end _ _ _ he]
        simp
      · rw [blocksStep_inBlock_cont _ _ _ (Bool.eq_false_iff.mpr he),
            blocksStep_inBlock_cont _ _ _ (Bool.eq_false_iff.mpr he)]
        simp
  | none =>
      by_cases hb : beginMarker.isPrefixOf (trimSpace l) = true
      · rw [blocksStep_begin _ _ hb, blocksStep_begin _ _ hb]
        simp
      · rw [blocksStep_skip _ _ (Bool.eq_false_iff.mpr hb),
            blocksStep_skip _ _ (Bool.eq_false_iff.mpr hb)]
        simp

/-- Block extraction from a non-empty accumulator of completed blocks is the
extraction from the empty accumulator, appended to it. -/
theorem foldl_blocksStep_shift :
    ∀ (lines : List Bytes) (bs : List Bytes) (pem : Option Bytes),
    lines.foldl blocksStep (bs, pem) =
      (bs ++ (lines.foldl blocksStep ([], pem)).1,
       (lines.foldl blocksStep ([], pem)).2) := by
  intro lines
  induction lines with
  | nil => intro bs pem; simp
  | cons l ls ih =>
      intro bs pem
      rw [List.foldl_cons, List.foldl_cons, blocksStep_shift]
      rcases h1 : blocksStep ([], pem) l with ⟨bs₁, pem₁⟩
      rw [ih (bs ++ bs₁) pem₁, ih bs₁ pem₁]
      simp [List.append_assoc]

theorem pemFields_placePemBlock {i₁ i₂ : IdentityFile}
    (h : pemFields i₁ = pemFields i₂) (b : Bytes) :
    pemFields (placePemBlock i₁ b) = pemFields (placePemBlock i₂ b) := by
  have h1 : i₁.PrivateKey = i₂.PrivateKey := congrArg (fun p => p.1) h
  have h2 : i₁.CertsTLS = i₂.CertsTLS := congrArg (fun p => p.2.1) h
  have h3 : i₁.CACertsTLS = i₂.CACertsTLS := congrArg (fun p => p.2.2) h
  unfold placePemBlock
  rw [h1, h2]
  cases i₂.PrivateKey with
  | none => simp [pemFields, h1, h2, h3]
  | some p =>
      cases i₂.CertsTLS with
      | none => simp [pemFields, h1, h2, h3]
      | some t => simp [pemFields, h1, h2, h3]

theorem pemFields_fillBlocks : ∀ (bs : List Bytes) (i₁ i₂ : IdentityFile),
    pemFields i₁ = pemFields i₂ →
    pemFields (fillBlocks i₁ bs) = pemFields (fillBlocks i₂ bs) := by
  intro bs
  induction bs with
  | nil => intro i₁ i₂ h; exact h
  | cons b rest ih => intro i₁ i₂ h; exact ih _ _ (pemFields_placePemBlock h b)

/-- Correspondence between the decoder's scan and plain positional PEM-block
extraction: starting from any record and any open-block state, the scan fills
the record's positional slots with exactly the stream's completed blocks, and
both sides agree on the open-block state. -/
theorem runLines_pemBlocks :
    ∀ (lines : List Bytes) (ident : IdentityFile) (pem : Option Bytes),
    pemFields (runLines lines (ident, pem)).1 =
      pemFields (fillBlocks ident (lines.foldl blocksStep ([], pem)).1) ∧
    (runLines lines (ident, pem)).2 = (lines.foldl blocksStep ([], pem)).2 := by
  intro lines
  induction lines with
  | nil => intro ident pem; exact ⟨rfl, rfl⟩
  | cons l ls ih =>
      intro ident pem
      rw [runLines_cons, List.foldl_cons]
      cases pem with
      | some acc =>
          by_cases he : endMarker.isPrefixOf (trimSpace l) = true
          · rw [stepLine_inBlock_end _ _ _ he, blocksStep_inBlock_end _ _ _ he,
              foldl_blocksStep_shift]
            obtain ⟨ih1, ih2⟩ :=
              ih (placePemBlock ident (acc ++ trimSpace l ++ ['\n'])) none
            exact ⟨ih1, ih2⟩
          · rw [stepLine_inBlock_cont _ _ _ (Bool.eq_false_iff.mpr he),
              blocksStep_inBlock_cont _ _ _ (Bool.eq_false_iff.mpr he)]
            exact ih ident (some (acc ++ trimSpace l ++ ['\n']))
      | none =>
          by_cases h0 : sshMarker.isPrefixOf (trimSpace l) = true
          · rw [stepLine_ssh _ _ h0, blocksStep_skip _ _ (ssh_not_begin h0)]
            obtain ⟨ih1, ih2⟩ := ih { ident with CertsSSH := some (trimSpace l) } none
            exact ⟨ih1.trans (pemFields_fillBlocks _ _ ident rfl), ih2⟩
          · by_cases h1 : caMarker.isPrefixOf (trimSpace l) = true
            · rw [stepLine_ca _ _ (Bool.eq_false_iff.mpr h0) h1,
                blocksStep_skip _ _ (ca_not_begin h1)]
              obtain ⟨ih1, ih2⟩ :=
                ih { ident with CACertsSSH := ident.CACertsSSH ++ [trimSpace l] } none
              exact ⟨ih1.trans (pemFields_fillBlocks _ _ ident rfl), ih2⟩
            · by_cases h2 : beginMarker.isPrefixOf (trimSpace l) = true
              · rw [stepLine_begin _ _ h2, blocksStep_begin _ _ h2]
                exact ih ident (some (trimSpace l ++ ['\n']))
              · rw [stepLine_skip _ _ (Bool.eq_false_iff.mpr h0)
                    (Bool.eq_false_iff.mpr h1) (Bool.eq_false_iff.mpr h2),
                  blocksStep_skip _ _ (Bool.eq_false_iff.mpr h2)]
                exact ih ident none

/-- Filling the empty record with a list of blocks puts the first in
`PrivateKey`, the second in `CertsTLS` and the rest in `CACertsTLS`. -/
theorem pemFields_fillBlocks_empty : ∀ (bs : List Bytes),
    pemFields (fillBlocks IdentityFile.empty bs) = (bs[0]?, bs[1]?, bs.drop 2) := by
  have hfull : ∀ (rest : List Bytes) (i : IdentityFile) (p t : Bytes),
      i.PrivateKey = some p → i.CertsTLS = some t →
      pemFields (fillBlocks i rest) = (some p, some t, i.CACertsTLS ++ rest) := by
    intro rest
    induction rest with
    | nil => intro i p t hp ht; simp [fillBlocks, pemFields, hp, ht]
    | cons b bs ih =>
        intro i p t hp ht
        rw [show fillBlocks i (b :: bs) = fillBlocks (placePemBlock i b) bs from rfl]
        have hplace : placePemBlock i b =
            { i with CACertsTLS := i.CACertsTLS ++ [b] } := by
          unfold placePemBlock
          rw [hp, ht]
        rw [hplace, ih _ p t (by simp [hp]) (by simp [ht])]
        simp
  intro bs
  match bs with
  | [] => simp [fillBlocks, pemFields, IdentityFile.empty]
  | [b] => simp [fillBlocks, pemFields, IdentityFile.empty, placePemBlock]
  | b1 :: b2 :: rest =>
      rw [show fillBlocks IdentityFile.empty (b1 :: b2 :: rest) =
          fillBlocks (placePemBlock (placePemBlock IdentityFile.empty b1) b2) rest
          from rfl]
      rw [hfull rest _ b1 b2 (by simp [placePemBlock, IdentityFile.empty])
        (by simp [placePemBlock, IdentityFile.empty])]
      simp [placePemBlock, IdentityFile.empty]

/-- **C2** (positional classification): for every input stream on which
`Decode` succeeds, the first completed PEM block is assigned to `PrivateKey`,
the second to the TLS certificate, and every subsequent block is appended in
stream order to the TLS authorities list, regardless of the text in the
block's `BEGIN` header. -/
theorem decode_positional (input : Bytes) (ident : IdentityFile)
    (h : Decode input = .ok ident) :
    ident.PrivateKey = (streamPemBlocks (splitLines input))[0]? ∧
    ident.CertsTLS = (streamPemBlocks (splitLines input))[1]? ∧
    ident.CACertsTLS = (streamPemBlocks (splitLines input)).drop 2 := by
  unfold Decode decodeCore at h
  obtain ⟨h1, -, -⟩ := finishDecode_ok h
  have hc := (runLines_pemBlocks (splitLines input) IdentityFile.empty none).1
  rw [h1] at hc
  have hfin := hc.trans (pemFields_fillBlocks_empty (streamPemBlocks (splitLines input)))
  exact ⟨congrArg (fun p => p.1) hfin, congrArg (fun p => p.2.1) hfin,
    congrArg (fun p => p.2.2) hfin⟩

theorem decode_positional_witness :
    Decode wStream = .ok wIdent ∧
    (wIdent.PrivateKey = (streamPemBlocks (splitLines wStream))[0]? ∧
     wIdent.CertsTLS = (streamPemBlocks (splitLines wStream))[1]? ∧
     wIdent.CACertsTLS = (streamPemBlocks (splitLines wStream)).drop 2) := by
  have hdec : Decode wStream = .ok wIdent := by decide
  exact ⟨hdec, decode_positional wStream wIdent hdec⟩

/-! ## C1: round-trip of the private key through the `file` layout -/

/-- C1 counterexample bundle: a proper private-key PEM block, a non-empty SSH
certificate, and a TLS certificate that is an unterminated PEM fragment. -/
def cexKey : Key :=
  ⟨"-----BEGIN A-----\n-----END A-----\n".toList, "sshcert\n".toList,
   "-----BEGIN B-----\n".toList⟩

/-- The single `file`-layout output stream of `cexKey` with no authorities. -/
def cexOut : Bytes :=
  "-----BEGIN A-----\n-----END A-----\nsshcert\n-----BEGIN B-----\n".toList

/-- **C1 counterexample**: a non-empty bundle whose `file`-layout output has
the private key as its first PEM block, yet `Decode` on that output fails
(with the fragment error) and thus yields no result at all — refuting the
claim that `Decode` always reconstructs the private key under the stated
precondition. -/
theorem file_roundtrip_counterexample :
    nonemptyBundle cexKey ∧
    Write "id" cexKey FormatFile [] = .ok (["id"], [("id", cexOut)]) ∧
    (streamPemBlocks (splitLines cexOut))[0]? = some cexKey.Priv ∧
    Decode cexOut = .error .fragment :=
  ⟨by decide, by decide, by decide, by decide⟩

/-- **C1** (amended): for every non-empty bundle, if `Decode`, applied to the
single output stream produced by `Write` with the `file` layout, *succeeds*,
then its result's `PrivateKey` equals the bundle's original `PrivateKey`
bytes, under the precondition that the private key is the first PEM block in
that stream. -/
theorem file_roundtrip_privateKey (filePath : String) (key : Key)
    (certAuthorities : List CertAuthority) (out : Bytes) (ident : IdentityFile)
    (_hne : nonemptyBundle key)
    (_hw : Write filePath key FormatFile certAuthorities =
      .ok ([filePath], [(filePath, out)]))
    (hfirst : (streamPemBlocks (splitLines out))[0]? = some key.Priv)
    (hdec : Decode out = .ok ident) :
    ident.PrivateKey = some key.Priv := by
  unfold Decode decodeCore at hdec
  obtain ⟨h1, -, -⟩ := finishDecode_ok hdec
  have hc := (runLines_pemBlocks (splitLines out) IdentityFile.empty none).1
  rw [h1] at hc
  have hfin := hc.trans (pemFields_fillBlocks_empty (streamPemBlocks (splitLines out)))
  exact (congrArg (fun p => p.1) hfin).trans hfirst

/-- C1 witness bundle: all components are well-terminated. -/
def wKey : Key :=
  ⟨"-----BEGIN A-----\n-----END A-----\n".toList, "sshcert\n".toList,
   "-----BEGIN B-----\n-----END B-----\n".toList⟩

/-- The `file`-layout output of `wKey` with no authorities. -/
def wOut : Bytes :=
  ("-----BEGIN A-----\n-----END A-----\nsshcert\n" ++
   "-----BEGIN B-----\n-----END B-----\n").toList

/-- The decode result of `wOut`. -/
def wOutIdent : IdentityFile :=
  ⟨some "-----BEGIN A-----\n-----END A-----\n".toList, some "sshcert".toList,
   some "-----BEGIN B-----\n-----END B-----\n".toList, [], []⟩

theorem file_roundtrip_privateKey_witness :
    Decode wOut = .ok wOutIdent ∧ wOutIdent.PrivateKey = some wKey.Priv := by
  have hdec : Decode wOut = .ok wOutIdent := by decide
  exact ⟨hdec,
    file_roundtrip_privateKey "id" wKey [] wOut wOutIdent
      (by decide) (by decide) (by decide) hdec⟩

/-! ## C10: normalization of stored PEM blocks -/

theorem dropWhile_idem (p : Char → Bool) (l : List Char) :
    (l.dropWhile p).dropWhile p = l.dropWhile p := by
  induction l with
  | nil => simp
  | cons c cs ih =>
      by_cases h : p c
      · simp [List.dropWhile_cons, h, ih]
      · simp [List.dropWhile_cons, h]

theorem dropWhile_fix_head {p : Char → Bool} {c : Char} {cs : List Char}
    (h : (c :: cs).dropWhile p = c :: cs) : p c = false := by
  by_contra hc
  rw [Bool.not_eq_false] at hc
  rw [List.dropWhile_cons, if_pos hc] at h
  have hs : cs.dropWhile p <:+ cs := List.dropWhile_suffix p
  have hle := hs.sublist.length_le
  rw [h] at hle
  simp at hle

theorem dropWhile_fix_of_prefix {p : Char → Bool} {l la : List Char}
    (h : l.dropWhile p = l) (hp : la <+: l) : la.dropWhile p = la := by
  cases la with
  | nil => rfl
  | cons c cs =>
      cases l with
      | nil => simp at hp
      | cons d ds =>
          obtain ⟨t, ht⟩ := hp
          have hcd : c = d := by
            rw [List.cons_append] at ht
            exact (List.cons.injEq .. ▸ ht).1
          subst hcd
          rw [List.dropWhile_cons, if_neg (by simp [dropWhile_fix_head h])]

/-- `trimSpace` is idempotent. -/
theorem trimSpace_idem (l : Bytes) : trimSpace (trimSpace l) = trimSpace l := by
  have hA : (trimSpace l).dropWhile isSpaceByte = trimSpace l := by
    apply dropWhile_fix_of_prefix (dropWhile_idem isSpaceByte l)
    show (List.dropWhile isSpaceByte (l.dropWhile isSpaceByte).reverse).reverse <+:
      l.dropWhile isSpaceByte
    conv_rhs => rw [← List.reverse_reverse (l.dropWhile isSpaceByte)]
    exact List.reverse_prefix.mpr (List.dropWhile_suffix isSpaceByte)
  have hB : (trimSpace l).reverse.dropWhile isSpaceByte = (trimSpace l).reverse := by
    unfold trimSpace
    rw [List.reverse_reverse]
    exact dropWhile_idem isSpaceByte _
  calc trimSpace (trimSpace l)
      = (((trimSpace l).dropWhile isSpaceByte).reverse.dropWhile isSpaceByte).reverse :=
        rfl
    _ = ((trimSpace l).reverse.dropWhile isSpaceByte).reverse := by rw [hA]
    _ = (trimSpace l).reverse.reverse := by rw [hB]
    _ = trimSpace l := List.reverse_reverse _

/-- `trimSpace` only removes characters. -/
theorem trimSpace_no_mem {l : Bytes} {a : Char} (h : a ∈ trimSpace l) : a ∈ l := by
  unfold trimSpace at h
  rw [List.mem_reverse] at h
  have h1 := (List.dropWhile_suffix isSpaceByte).subset h
  rw [List.mem_reverse] at h1
  exact (List.dropWhile_suffix isSpaceByte).subset h1

theorem dropCR_subset {l : Bytes} {a : Char} (h : a ∈ dropCR l) : a ∈ l := by
  unfold dropCR at h
  split at h
  · exact (List.dropLast_sublist _).subset h
  · exact h

/-- Lines produced by `splitLines` never contain `'\n'`. -/
theorem splitLines_no_newline (input : Bytes) :
    ∀ l ∈ splitLines input, '\n' ∉ l := by
  suffices h : ∀ (s cur : Bytes), (∀ c ∈ cur, c ≠ '\n') →
      ∀ l ∈ linesLoop s cur, '\n' ∉ l by
    intro l hl
    exact h input [] (by simp) l hl
  intro s
  induction s with
  | nil =>
      intro cur hcur l hl
      unfold linesLoop at hl
      by_cases hc : cur.isEmpty
      · simp [hc] at hl
      · rw [if_neg hc] at hl
        simp at hl
        subst hl
        intro hmem
        exact hcur '\n' (dropCR_subset hmem) rfl
  | cons c cs ih =>
      intro cur hcur l hl
      unfold linesLoop at hl
      by_cases hc : c = '\n'
      · rw [if_pos hc] at hl
        rcases List.mem_cons.mp hl with h1 | h1
        · subst h1
          intro hmem
          exact hcur '\n' (dropCR_subset hmem) rfl
        · exact ih [] (by simp) l h1
      · rw [if_neg hc] at hl
        refine ih (cur ++ [c]) ?_ l hl
        intro x hx
        rcases List.mem_append.mp hx with h1 | h1
        · exact hcur x h1
        · simp at h1
          subst h1
          exact hc

theorem isOpenBlock_start {line : Bytes}
    (hb : beginMarker.isPrefixOf line = true)
    (ht : trimSpace line = line) (hn : '\n' ∉ line) :
    IsOpenBlock (line ++ ['\n']) :=
  ⟨[line], by simp, by simp [ht, hn], ⟨line, [], rfl, hb⟩⟩

theorem isOpenBlock_snoc {acc line : Bytes} (h : IsOpenBlock acc)
    (ht : trimSpace line = line) (hn : '\n' ∉ line) :
    IsOpenBlock (acc ++ line ++ ['\n']) := by
  obtain ⟨ls, hacc, hlines, f, rest, hls, hf⟩ := h
  refine ⟨ls ++ [line], ?_, ?_, ⟨f, rest ++ [line], by rw [hls]; simp, hf⟩⟩
  · rw [hacc]
    simp [List.append_assoc]
  · intro x hx
    rcases List.mem_append.mp hx with h1 | h1
    · exact hlines x h1
    · simp at h1
      subst h1
      exact ⟨ht, hn⟩

theorem isOpenBlock_close {acc line : Bytes} (h : IsOpenBlock acc)
    (ht : trimSpace line = line) (hn : '\n' ∉ line)
    (he : endMarker.isPrefixOf line = true) :
    IsNormalizedBlock (acc ++ line ++ ['\n']) := by
  obtain ⟨ls, hacc, hlines, f, rest, hls, hf⟩ := h
  refine ⟨ls ++ [line], ?_, ?_,
    ⟨f, rest ++ [line], by rw [hls]; simp, hf⟩, ⟨ls, line, rfl, he⟩⟩
  · rw [hacc]
    simp [List.append_assoc]
  · intro x hx
    rcases List.mem_append.mp hx with h1 | h1
    · exact hlines x h1
    · simp at h1
      subst h1
      exact ⟨ht, hn⟩

theorem placePemBlock_normalized {ident : IdentityFile}
    (h1 : ∀ b, ident.PrivateKey = some b → IsNormalizedBlock b)
    (h2 : ∀ b, ident.CertsTLS = some b → IsNormalizedBlock b)
    (h3 : ∀ b ∈ ident.CACertsTLS, IsNormalizedBlock b)
    {nb : Bytes} (hb : IsNormalizedBlock nb) :
    (∀ b, (placePemBlock ident nb).PrivateKey = some b → IsNormalizedBlock b) ∧
    (∀ b, (placePemBlock ident nb).CertsTLS = some b → IsNormalizedBlock b) ∧
    (∀ b ∈ (placePemBlock ident nb).CACertsTLS, IsNormalizedBlock b) := by
  cases hpk : ident.PrivateKey with
  | none =>
      have hpl : placePemBlock ident nb = { ident with PrivateKey := some nb } := by
        unfold placePemBlock
        rw [hpk]
      rw [hpl]
      refine ⟨?_, h2, h3⟩
      intro b hbb
      simp at hbb
      subst hbb
      exact hb
  | some p =>
      cases htls : ident.CertsTLS with
      | none =>
          have hpl : placePemBlock ident nb = { ident with CertsTLS := some nb } := by
            unfold placePemBlock
            rw [hpk, htls]
          rw [hpl]
          refine ⟨h1, ?_, h3⟩
          intro b hbb
          simp at hbb
          subst hbb
          exact hb
      | some t =>
          have hpl : placePemBlock ident nb =
              { ident with CACertsTLS := ident.CACertsTLS ++ [nb] } := by
            unfold placePemBlock
            rw [hpk, htls]
          rw [hpl]
          refine ⟨h1, h2, ?_⟩
          intro b hbb
          rcases List.mem_append.mp hbb with hm | hm
          · exact h3 b hm
          · simp at hm
            subst hm
            exact hb

/-- The normalization invariant on a scan state: every stored block is
normalized, and the open accumulator (if any) is an open block. -/
def NormInv (s : DecState) : Prop :=
  (∀ b, s.1.PrivateKey = some b → IsNormalizedBlock b) ∧
  (∀ b, s.1.CertsTLS = some b → IsNormalizedBlock b) ∧
  (∀ b ∈ s.1.CACertsTLS, IsNormalizedBlock b) ∧
  (∀ acc, s.2 = some acc → IsOpenBlock acc)

theorem stepLine_normInv {s : DecState} (hinv : NormInv s) {l : Bytes}
    (hn : '\n' ∉ l) : NormInv (stepLine s l) := by
  obtain ⟨ident, pem⟩ := s
  obtain ⟨h1, h2, h3, h4⟩ := hinv
  have htl : trimSpace (trimSpace l) = trimSpace l := trimSpace_idem l
  have hnl : '\n' ∉ trimSpace l := fun hx => hn (trimSpace_no_mem hx)
  cases pem with
  | some acc =>
      have hopen := h4 acc rfl
      by_cases he : endMarker.isPrefixOf (trimSpace l) = true
      · rw [stepLine_inBlock_end _ _ _ he]
        obtain ⟨g1, g2, g3⟩ :=
          placePemBlock_normalized h1 h2 h3 (isOpenBlock_close hopen htl hnl he)
        exact ⟨g1, g2, g3, by intro acc' hacc'; simp at hacc'⟩
      · rw [stepLine_inBlock_cont _ _ _ (Bool.eq_false_iff.mpr he)]
        refine ⟨h1, h2, h3, ?_⟩
        intro acc' hacc'
        simp at hacc'
        subst hacc'
        simpa [List.append_assoc] using isOpenBlock_snoc hopen htl hnl
  | none =>
      by_cases h0 : sshMarker.isPrefixOf (trimSpace l) = true
      · rw [stepLine_ssh _ _ h0]
        exact ⟨h1, h2, h3, by intro acc' hacc'; simp at hacc'⟩
      · by_cases hca : caMarker.isPrefixOf (trimSpace l) = true
        · rw [stepLine_ca _ _ (Bool.eq_false_iff.mpr h0) hca]
          exact ⟨h1, h2, h3, by intro acc' hacc'; simp at hacc'⟩
        · by_cases hbg : beginMarker.isPrefixOf (trimSpace l) = true
          · rw [stepLine_begin _ _ hbg]
            refine ⟨h1, h2, h3, ?_⟩
            intro acc' hacc'
            simp at hacc'
            subst hacc'
            exact isOpenBlock_start hbg htl hnl
          · rw [stepLine_skip _ _ (Bool.eq_false_iff.mpr h0)
              (Bool.eq_false_iff.mpr hca) (Bool.eq_false_iff.mpr hbg)]
            exact ⟨h1, h2, h3, by intro acc' hacc'; simp at hacc'⟩

theorem runLines_normInv : ∀ (lines : List Bytes) (s : DecState),
    (∀ l ∈ lines, '\n' ∉ l) → NormInv s → NormInv (runLines lines s) := by
  intro lines
  induction lines with
  | nil => intro s _ hinv; exact hinv
  | cons l ls ih =>
      intro s hn hinv
      rw [runLines_cons]
      exact ih _ (fun x hx => hn x (by simp [hx]))
        (stepLine_normInv hinv (hn l (by simp)))

/-- **C10** (normalization invariant): every PEM block stored by a successful
`Decode` (as `PrivateKey`, TLS certificate, or a TLS authority entry) consists
of the block's lines, each trimmed of leading and trailing whitespace and each
followed by exactly one `'\n'`; its first line starts with `-----BEGIN` and
its last line starts with `-----END` — so decoded blocks are
newline-normalized and need not be byte-identical to the input region they
came from. -/
theorem decode_normalized (input : Bytes) (ident : IdentityFile)
    (h : Decode input = .ok ident) :
    (∀ b, ident.PrivateKey = some b → IsNormalizedBlock b) ∧
    (∀ b, ident.CertsTLS = some b → IsNormalizedBlock b) ∧
    (∀ b ∈ ident.CACertsTLS, IsNormalizedBlock b) := by
  unfold Decode decodeCore at h
  obtain ⟨h1, -, -⟩ := finishDecode_ok h
  have hinv := runLines_normInv (splitLines input) (IdentityFile.empty, none)
    (splitLines_no_newline input)
    ⟨by intro b hb; simp [IdentityFile.empty] at hb,
     by intro b hb; simp [IdentityFile.empty] at hb,
     by intro b hb; simp [IdentityFile.empty] at hb,
     by intro acc hacc; simp at hacc⟩
  obtain ⟨g1, g2, g3, -⟩ := hinv
  rw [h1] at g1 g2 g3
  exact ⟨g1, g2, g3⟩

/-- A witness stream whose lines need trimming and CR-stripping. -/
def w10 : Bytes :=
  ("  -----BEGIN A-----  \r\nAA\n-----END A-----\n" ++
   "-----BEGIN B-----\n-----END B-----\n-----BEGIN C-----\n-----END C-----\n").toList

/-- The decode result of `w10`. -/
def w10Ident : IdentityFile :=
  ⟨some "-----BEGIN A-----\nAA\n-----END A-----\n".toList, none,
   some "-----BEGIN B-----\n-----END B-----\n".toList, [],
   ["-----BEGIN C-----\n-----END C-----\n".toList]⟩

theorem decode_normalized_witness :
    Decode w10 = .ok w10Ident ∧
    IsNormalizedBlock "-----BEGIN A-----\nAA\n-----END A-----\n".toList := by
  have hdec : Decode w10 = .ok w10Ident := by decide
  exact ⟨hdec,
    (decode_normalized w10 w10Ident hdec).1
      "-----BEGIN A-----\nAA\n-----END A-----\n".toList (by decide)⟩

end Identityfile
